import Mathlib

/-!
Verification of the Issued Connection-ID Set (quicly).

The repository ships the unit test `src/t/issued_cid.c`, which exercises the
issued-CID set through its public operations and checks its invariants.  The
core implementation (`quicly/issued_cid.h`) is not part of the visible
sources, so the state-machine operations below are modelled from the
specification; the test harness helpers (`encrypt_cid`, `decrypt_cid`,
`verify_cid`, the pending-first scan of `verify_array`, `num_pending`,
`exists_once`) are embedded from `src/t/issued_cid.c`.
-/

namespace IssuedCid

/-- Lifecycle state of one CID slot (`QUICLY_ISSUED_CID_STATE_*`). -/
inductive CidState where
  | idle
  | pending
  | inflight
  | delivered
deriving DecidableEq, Repr

/-- Embedded from `src/t/issued_cid.c` (`encrypt_cid`): the test encryptor
stores the 8-bit `path_id` as the single byte of the CID
(`encrypted->cid[0] = plaintext->path_id; encrypted->len = 1;`).
The cell is a `uint8_t`, hence the reduction modulo 256. -/
def encrypt_cid (pathId : Nat) : List Nat :=
  [pathId % 256]

/-- Embedded from `src/t/issued_cid.c` (`decrypt_cid`): reads the first byte
of the encrypted CID back as the `path_id`. -/
def decrypt_cid (bytes : List Nat) : Nat :=
  bytes.headD 0

/-- One issued-CID slot: sequence number, wire bytes produced by the
encryptor, and lifecycle state.  Modelled from the spec (data model of the
CID Slot); the stateless-reset token is omitted because the test encryptor
never writes it. -/
structure Slot where
  sequence : Nat
  cid : List Nat
  state : CidState
deriving DecidableEq, Repr

/-- True when the slot is in the `Pending` state. -/
def isPending (c : Slot) : Bool :=
  match c.state with
  | CidState.pending => true
  | _ => false

/-- Modelled from the spec: the Issued CID Set.  `active` models
`slots[0 .. active_count)` in array order; the remaining
`slots[active_count .. capacity)` are all `Idle` (invariant 2) and are
represented implicitly.  `nextSequence` is the never-reused issuance
counter, `lastTarget` the last size requested through `setSize` (used by
`retire` to decide whether to backfill), `template` the caller-supplied
plaintext blueprint (its `path_id` is overwritten with the sequence before
each `encode` call, so it has no effect on issued CIDs). -/
structure IssuedCidSet where
  active : List Slot
  nextSequence : Nat
  hasEncryptor : Bool
  capacity : Nat
  lastTarget : Nat
  template : Nat
deriving DecidableEq, Repr

/-- Modelled from the spec (ordering/compaction rule): stable partition of
the active slots, putting the `Pending` group in front. -/
def compact (l : List Slot) : List Slot :=
  l.filter isPending ++ l.filter (fun c => !isPending c)

/-- Modelled from the spec: issue one fresh slot, `Pending`, carrying the
next sequence number; the plaintext passed to `encode` has its `path_id`
overwritten with that sequence.  The new slot joins the end of the
`Pending` group. -/
def issueOne (s : IssuedCidSet) : IssuedCidSet :=
  { s with
    active := compact (s.active ++ [⟨s.nextSequence, encrypt_cid s.nextSequence, CidState.pending⟩])
    nextSequence := s.nextSequence + 1 }

/-- Iterated issuance of `n` fresh pending slots. -/
def issueN : Nat → IssuedCidSet → IssuedCidSet
  | 0, s => s
  | n + 1, s => issueN n (issueOne s)

/-- Modelled from the spec (`init`): constructs an empty set; when the
encryptor is present, sequence 0 is issued directly as `Delivered`. -/
def quicly_issued_cid_init (hasEnc : Bool) (cap : Nat) (tpl : Nat) : IssuedCidSet :=
  if hasEnc then
    { active := [⟨0, encrypt_cid 0, CidState.delivered⟩]
      nextSequence := 1
      hasEncryptor := true
      capacity := cap
      lastTarget := 1
      template := tpl }
  else
    { active := []
      nextSequence := 0
      hasEncryptor := false
      capacity := cap
      lastTarget := 0
      template := tpl }

/-- Modelled from the spec (`setSize`): grows `active_count` toward
`min target capacity` by issuing new `Pending` slots; returns the number of
newly issued slots, and returns 0 making no change when the encryptor is
absent, the target does not exceed the current size, or capacity is
exhausted. -/
def quicly_issued_cid_set_size (s : IssuedCidSet) (target : Nat) : IssuedCidSet × Nat :=
  if s.hasEncryptor = false then (s, 0)
  else
    let goal := min target s.capacity
    if goal ≤ s.active.length then (s, 0)
    else
      let n := goal - s.active.length
      ({ issueN n s with lastTarget := goal }, n)

/-- Promote up to `n` of the leading `Pending` slots to `Inflight`,
scanning from the front of the array. -/
def promotePending : Nat → List Slot → List Slot
  | _, [] => []
  | 0, l => l
  | n + 1, c :: rest =>
    if isPending c then
      { c with state := CidState.inflight } :: promotePending n rest
    else
      c :: promotePending (n + 1) rest

/-- Modelled from the spec (`onSent`): promotes up to `count` leading
`Pending` slots to `Inflight`, then re-establishes the pending-first
partition. -/
def quicly_issued_cid_on_sent (s : IssuedCidSet) (count : Nat) : IssuedCidSet :=
  { s with active := compact (promotePending count s.active) }

/-- Mark the active slot carrying `seq` as `Delivered`. -/
def markAcked (seq : Nat) (c : Slot) : Slot :=
  if c.sequence == seq then { c with state := CidState.delivered } else c

/-- Modelled from the spec (`onAcked`): sets the state of the active slot
with the matching sequence to `Delivered` unconditionally; a sequence with
no active slot is a silent no-op. -/
def quicly_issued_cid_on_acked (s : IssuedCidSet) (seq : Nat) : IssuedCidSet :=
  { s with active := compact (s.active.map (markAcked seq)) }

/-- True when the slot is in the `Inflight` state. -/
def isInflight (c : Slot) : Bool :=
  match c.state with
  | CidState.inflight => true
  | _ => false

/-- Requeue the matching `Inflight` slot as `Pending`. -/
def markLost (seq : Nat) (c : Slot) : Slot :=
  if c.sequence == seq && isInflight c then { c with state := CidState.pending } else c

/-- Modelled from the spec (`onLost`): if and only if the active slot with
the matching sequence is currently `Inflight`, it is transitioned back to
`Pending` and success is reported; otherwise the call is a no-op reporting
`false`. -/
def quicly_issued_cid_on_lost (s : IssuedCidSet) (seq : Nat) : IssuedCidSet × Bool :=
  if s.active.any (fun c => c.sequence == seq && isInflight c) then
    ({ s with active := compact (s.active.map (markLost seq)) }, true)
  else
    (s, false)

/-- Free the active slot carrying `seq`, re-establishing the partition. -/
def removeSeq (s : IssuedCidSet) (seq : Nat) : IssuedCidSet :=
  { s with active := compact (s.active.filter (fun c => !(c.sequence == seq))) }

/-- Modelled from the spec (`retire`): frees the active slot with the
matching sequence and reports success; when the encryptor is present and
the set dropped below its last-requested target, one replacement `Pending`
slot with a fresh sequence is issued immediately.  A sequence with no
active slot reports `false` and changes nothing. -/
def quicly_issued_cid_retire (s : IssuedCidSet) (seq : Nat) : IssuedCidSet × Bool :=
  if s.active.any (fun c => c.sequence == seq) then
    if (removeSeq s seq).hasEncryptor = true
        ∧ (removeSeq s seq).active.length < (removeSeq s seq).lastTarget then
      (issueOne (removeSeq s seq), true)
    else
      (removeSeq s seq, true)
  else
    (s, false)

/-- Modelled from the spec (`isEmpty`): true iff `active_count = 0`. -/
def quicly_issued_cid_is_empty (s : IssuedCidSet) : Bool :=
  s.active.isEmpty

/-- Embedded from `src/t/issued_cid.c` (`verify_cid`): an active slot's
stored bytes must decrypt back to its sequence number (idle slots and the
encryptor-less configuration pass vacuously). -/
def verify_cid (hasEnc : Bool) (c : Slot) : Bool :=
  if c.state = CidState.idle then true
  else if hasEnc = false then true
  else decrypt_cid c.cid == c.sequence

/-- Embedded from `src/t/issued_cid.c` (`verify_array`, pending-first part):
the scan over `slots[0 .. _size)` carrying the `allow_pending` flag; once a
non-`Pending` slot is seen, a later `Pending` slot fails the scan. -/
def pending_first_scan : Bool → List Slot → Bool
  | _, [] => true
  | true, c :: rest => pending_first_scan (isPending c) rest
  | false, c :: rest => if isPending c then false else pending_first_scan false rest

/-- Embedded from `src/t/issued_cid.c` (`verify_array`): pending-first scan
combined with the per-slot `verify_cid` check. -/
def verify_array (s : IssuedCidSet) : Bool :=
  pending_first_scan true s.active && s.active.all (verify_cid s.hasEncryptor)

/-- Embedded from `src/t/issued_cid.c` (`num_pending`): the number of
`Pending` slots (idle slots are never pending, so only the active prefix
contributes). -/
def num_pending (s : IssuedCidSet) : Nat :=
  s.active.countP isPending

/-- Embedded from `src/t/issued_cid.c` (`exists_once`): the loop counting
occurrences of `seq` among `slots[0 .. _size)`, failing on a state mismatch
or a second occurrence. -/
def exists_once_loop (seq : Nat) (st : CidState) : Nat → List Slot → Bool
  | occ, [] => occ == 1
  | occ, c :: rest =>
    if c.sequence == seq then
      if c.state ≠ st then false
      else if occ > 0 then false
      else exists_once_loop seq st (occ + 1) rest
    else
      exists_once_loop seq st occ rest

/-- Embedded from `src/t/issued_cid.c` (`exists_once`). -/
def exists_once (s : IssuedCidSet) (seq : Nat) (st : CidState) : Bool :=
  exists_once_loop seq st 0 s.active

/-- One public operation of the set, for describing operation sequences. -/
inductive Op where
  | setSize (target : Nat)
  | onSent (count : Nat)
  | onAcked (seq : Nat)
  | onLost (seq : Nat)
  | retire (seq : Nat)
deriving DecidableEq, Repr

/-- Apply one operation, discarding the reported result. -/
def applyOp (s : IssuedCidSet) : Op → IssuedCidSet
  | Op.setSize t => (quicly_issued_cid_set_size s t).1
  | Op.onSent n => quicly_issued_cid_on_sent s n
  | Op.onAcked q => quicly_issued_cid_on_acked s q
  | Op.onLost q => (quicly_issued_cid_on_lost s q).1
  | Op.retire q => (quicly_issued_cid_retire s q).1

/-- Run a sequence of operations from a freshly initialised set. -/
def run (hasEnc : Bool) (cap : Nat) (tpl : Nat) (ops : List Op) : IssuedCidSet :=
  ops.foldl applyOp (quicly_issued_cid_init hasEnc cap tpl)

/-- A state is reachable when some initialisation (with positive capacity,
as the test asserts `QUICLY_LOCAL_ACTIVE_CONNECTION_ID_LIMIT >= NUM_CIDS`)
followed by a sequence of public operations produces it. -/
def Reachable (s : IssuedCidSet) : Prop :=
  ∃ hasEnc cap tpl ops, 0 < cap ∧ s = run hasEnc cap tpl ops

/-! ### Basic facts about slot predicates, `compact` and the pending-first scan -/

theorem isPending_iff {c : Slot} : isPending c = true ↔ c.state = CidState.pending := by
  cases c with
  | mk seq cid st => cases st <;> simp [isPending]

theorem isInflight_iff {c : Slot} : isInflight c = true ↔ c.state = CidState.inflight := by
  cases c with
  | mk seq cid st => cases st <;> simp [isInflight]

theorem compact_perm (l : List Slot) : (compact l).Perm l :=
  List.filter_append_perm isPending l

theorem mem_compact {c : Slot} {l : List Slot} : c ∈ compact l ↔ c ∈ l :=
  (compact_perm l).mem_iff

theorem length_compact (l : List Slot) : (compact l).length = l.length :=
  (compact_perm l).length_eq

theorem map_compact_perm (f : Slot → α) (l : List Slot) :
    ((compact l).map f).Perm (l.map f) :=
  (compact_perm l).map f

theorem scan_false_of_none {l : List Slot} (h : ∀ c ∈ l, isPending c = false) :
    pending_first_scan false l = true := by
  induction l with
  | nil => rfl
  | cons c rest ih =>
    have hc := h c (List.mem_cons_self c rest)
    show (if isPending c then false else pending_first_scan false rest) = true
    simp only [hc, if_false, Bool.false_eq_true]
    exact ih fun b hb => h b (List.mem_cons_of_mem c hb)

theorem scan_true_of_none {l : List Slot} (h : ∀ c ∈ l, isPending c = false) :
    pending_first_scan true l = true := by
  cases l with
  | nil => rfl
  | cons c rest =>
    show pending_first_scan (isPending c) rest = true
    rw [h c (List.mem_cons_self c rest)]
    exact scan_false_of_none fun b hb => h b (List.mem_cons_of_mem c hb)

theorem scan_append {p n : List Slot} (hp : ∀ c ∈ p, isPending c = true)
    (hn : ∀ c ∈ n, isPending c = false) : pending_first_scan true (p ++ n) = true := by
  induction p with
  | nil => exact scan_true_of_none hn
  | cons c rest ih =>
    show pending_first_scan (isPending c) (rest ++ n) = true
    rw [hp c (List.mem_cons_self c rest)]
    exact ih fun b hb => hp b (List.mem_cons_of_mem c hb)

theorem compact_scan (l : List Slot) : pending_first_scan true (compact l) = true := by
  refine scan_append (fun c hc => ?_) (fun c hc => ?_)
  · exact (List.mem_filter.1 hc).2
  · have := (List.mem_filter.1 hc).2
    simpa using this

theorem scan_false_all {l : List Slot} (h : pending_first_scan false l = true) :
    ∀ c ∈ l, isPending c = false := by
  induction l with
  | nil => intro c hc; cases hc
  | cons c rest ih =>
    intro b hb
    by_cases hc : isPending c = true
    · exfalso
      have : (if isPending c then false else pending_first_scan false rest) = true := h
      rw [hc] at this
      simp at this
    · have hc' : isPending c = false := Bool.eq_false_iff.2 hc
      have hrest : pending_first_scan false rest = true := by
        have : (if isPending c then false else pending_first_scan false rest) = true := h
        rwa [hc', if_neg (by simp)] at this
      rcases List.mem_cons.1 hb with rfl | hb'
      · exact hc'
      · exact ih hrest b hb'

theorem compact_eq_self {l : List Slot} (h : pending_first_scan true l = true) :
    compact l = l := by
  induction l with
  | nil => rfl
  | cons c rest ih =>
    have h' : pending_first_scan (isPending c) rest = true := h
    by_cases hc : isPending c = true
    · rw [hc] at h'
      have : compact rest = rest := ih h'
      simp only [compact, List.filter_cons, hc, Bool.not_true, if_true]
      simp only [compact] at this
      simp [this]
    · have hc' : isPending c = false := Bool.eq_false_iff.2 hc
      rw [hc'] at h'
      have hall : ∀ b ∈ (c :: rest), isPending b = false := by
        intro b hb
        rcases List.mem_cons.1 hb with rfl | hb'
        · exact hc'
        · exact scan_false_all h' b hb'
      have h1 : (c :: rest).filter isPending = [] :=
        List.filter_eq_nil_iff.2 fun b hb => by simp [hall b hb]
      have h2 : (c :: rest).filter (fun b => !isPending b) = c :: rest :=
        List.filter_eq_self.2 fun b hb => by simp [hall b hb]
      simp [compact, h1, h2]


/-! ### Facts about the slot transformers -/

theorem markAcked_sequence (q : Nat) (c : Slot) : (markAcked q c).sequence = c.sequence := by
  unfold markAcked; split <;> rfl

theorem markAcked_cid (q : Nat) (c : Slot) : (markAcked q c).cid = c.cid := by
  unfold markAcked; split <;> rfl

theorem markLost_sequence (q : Nat) (c : Slot) : (markLost q c).sequence = c.sequence := by
  unfold markLost; split <;> rfl

theorem markLost_cid (q : Nat) (c : Slot) : (markLost q c).cid = c.cid := by
  unfold markLost; split <;> rfl

theorem promotePending_map_sequence (n : Nat) (l : List Slot) :
    (promotePending n l).map Slot.sequence = l.map Slot.sequence := by
  induction l generalizing n with
  | nil => cases n <;> rfl
  | cons c rest ih =>
    cases n with
    | zero => rfl
    | succ m =>
      by_cases hc : isPending c = true
      · simp [promotePending, hc, ih]
      · simp [promotePending, hc, ih]

theorem promotePending_length (n : Nat) (l : List Slot) :
    (promotePending n l).length = l.length := by
  have h := congrArg List.length (promotePending_map_sequence n l)
  simpa using h

theorem promotePending_mem {n : Nat} {l : List Slot} {c : Slot}
    (h : c ∈ promotePending n l) :
    ∃ b ∈ l, c = b ∨ c = { b with state := CidState.inflight } := by
  induction l generalizing n with
  | nil => cases n <;> cases h
  | cons b rest ih =>
    cases n with
    | zero =>
      exact ⟨c, h, Or.inl rfl⟩
    | succ m =>
      by_cases hb : isPending b = true
      · simp only [promotePending, hb, if_true] at h
        rcases List.mem_cons.1 h with rfl | h'
        · exact ⟨b, List.mem_cons_self b rest, Or.inr rfl⟩
        · rcases ih h' with ⟨b', hb', hc'⟩
          exact ⟨b', List.mem_cons_of_mem b hb', hc'⟩
      · simp only [promotePending, hb, if_false] at h
        rcases List.mem_cons.1 h with rfl | h'
        · exact ⟨c, List.mem_cons_self c rest, Or.inl rfl⟩
        · rcases ih h' with ⟨b', hb', hc'⟩
          exact ⟨b', List.mem_cons_of_mem b hb', hc'⟩

/-! ### The inductive invariant -/

/-- Well-formedness of a single active slot relative to the issuance
counter: its sequence is below the counter, its bytes are those the
encryptor produced for its sequence, and it is not `Idle`. -/
def SlotOk (next : Nat) (c : Slot) : Prop :=
  c.sequence < next ∧ c.cid = encrypt_cid c.sequence ∧ c.state ≠ CidState.idle

theorem SlotOk.mono {next next' : Nat} {c : Slot} (h : SlotOk next c) (hle : next ≤ next') :
    SlotOk next' c :=
  ⟨Nat.lt_of_lt_of_le h.1 hle, h.2.1, h.2.2⟩

/-- The inductive invariant of the issued-CID set, covering invariants 1-4
of the spec (invariant 2 holds by construction of the model). -/
structure Inv (s : IssuedCidSet) : Prop where
  pf : pending_first_scan true s.active = true
  nd : (s.active.map Slot.sequence).Nodup
  ok : ∀ c ∈ s.active, SlotOk s.nextSequence c
  len : s.active.length ≤ s.capacity
  tgt : s.lastTarget ≤ s.capacity
  cap : 0 < s.capacity
  enc : s.hasEncryptor = false → s.active = []

theorem nodup_compact {l : List Slot} (h : (l.map Slot.sequence).Nodup) :
    ((compact l).map Slot.sequence).Nodup :=
  ((map_compact_perm Slot.sequence l).symm).nodup h

theorem nodup_map_of_seq_eq {l : List Slot} {f : Slot → Slot}
    (hf : ∀ c ∈ l, (f c).sequence = c.sequence)
    (h : (l.map Slot.sequence).Nodup) : ((l.map f).map Slot.sequence).Nodup := by
  rw [List.map_map]
  have : l.map (Slot.sequence ∘ f) = l.map Slot.sequence :=
    List.map_congr_left fun c hc => hf c hc
  rw [this]
  exact h

theorem inv_init {hasEnc : Bool} {cap tpl : Nat} (hc : 0 < cap) :
    Inv (quicly_issued_cid_init hasEnc cap tpl) := by
  cases hasEnc with
  | false =>
    refine ⟨rfl, ?_, ?_, ?_, ?_, hc, fun _ => rfl⟩ <;> simp [quicly_issued_cid_init]
  | true =>
    refine ⟨rfl, ?_, ?_, ?_, ?_, hc, ?_⟩
    · simp [quicly_issued_cid_init]
    · intro c hcm
      simp [quicly_issued_cid_init] at hcm
      subst hcm
      exact ⟨Nat.zero_lt_one, rfl, by simp⟩
    · simpa [quicly_issued_cid_init] using hc
    · simpa [quicly_issued_cid_init] using hc
    · intro h
      simp [quicly_issued_cid_init] at h


/-! ### Invariant preservation: issuance -/

theorem issueOne_length (s : IssuedCidSet) :
    (issueOne s).active.length = s.active.length + 1 := by
  simp [issueOne, length_compact]

theorem issueOne_hasEncryptor (s : IssuedCidSet) :
    (issueOne s).hasEncryptor = s.hasEncryptor := rfl

theorem issueOne_capacity (s : IssuedCidSet) : (issueOne s).capacity = s.capacity := rfl

theorem issueOne_lastTarget (s : IssuedCidSet) : (issueOne s).lastTarget = s.lastTarget := rfl

theorem inv_issueOne {s : IssuedCidSet} (h : Inv s) (henc : s.hasEncryptor = true)
    (hroom : s.active.length < s.capacity) : Inv (issueOne s) := by
  set newSlot : Slot := ⟨s.nextSequence, encrypt_cid s.nextSequence, CidState.pending⟩ with hnew
  refine ⟨compact_scan _, ?_, ?_, ?_, ?_, ?_, ?_⟩
  · apply nodup_compact
    rw [List.map_append]
    refine List.nodup_append.2 ⟨h.nd, List.nodup_singleton _, ?_⟩
    intro a ha hb
    rcases List.mem_map.1 ha with ⟨c, hcm, rfl⟩
    have hlt := (h.ok c hcm).1
    have hb' : c.sequence = s.nextSequence := by simpa [hnew] using hb
    omega
  · intro c hcm
    rcases List.mem_append.1 (mem_compact.1 hcm) with hm | hm
    · exact (h.ok c hm).mono (Nat.le_succ _)
    · have hce : c = newSlot := by simpa using hm
      subst hce
      exact ⟨Nat.lt_succ_self _, rfl, by simp [hnew]⟩
  · show (issueOne s).active.length ≤ (issueOne s).capacity
    rw [issueOne_length, issueOne_capacity]
    omega
  · exact h.tgt
  · exact h.cap
  · intro hfe
    rw [issueOne_hasEncryptor, henc] at hfe
    cases hfe

theorem issueN_length (n : Nat) (s : IssuedCidSet) :
    (issueN n s).active.length = s.active.length + n := by
  induction n generalizing s with
  | zero => rfl
  | succ m ih =>
    show (issueN m (issueOne s)).active.length = s.active.length + (m + 1)
    rw [ih, issueOne_length]
    omega

theorem issueN_hasEncryptor (n : Nat) (s : IssuedCidSet) :
    (issueN n s).hasEncryptor = s.hasEncryptor := by
  induction n generalizing s with
  | zero => rfl
  | succ m ih =>
    show (issueN m (issueOne s)).hasEncryptor = s.hasEncryptor
    rw [ih, issueOne_hasEncryptor]

theorem issueN_capacity (n : Nat) (s : IssuedCidSet) :
    (issueN n s).capacity = s.capacity := by
  induction n generalizing s with
  | zero => rfl
  | succ m ih =>
    show (issueN m (issueOne s)).capacity = s.capacity
    rw [ih, issueOne_capacity]

theorem inv_issueN {s : IssuedCidSet} (n : Nat) (h : Inv s) (henc : s.hasEncryptor = true)
    (hroom : s.active.length + n ≤ s.capacity) : Inv (issueN n s) := by
  induction n generalizing s with
  | zero => exact h
  | succ m ih =>
    show Inv (issueN m (issueOne s))
    have h1 : Inv (issueOne s) := inv_issueOne h henc (by omega)
    refine ih h1 ?_ ?_
    · rw [issueOne_hasEncryptor]; exact henc
    · rw [issueOne_length, issueOne_capacity]; omega

/-- Equation: `setSize` is a no-op when the clamped target does not exceed
the current size. -/
theorem set_size_eq_small {s : IssuedCidSet} {t : Nat}
    (hg : min t s.capacity ≤ s.active.length) :
    quicly_issued_cid_set_size s t = (s, 0) := by
  unfold quicly_issued_cid_set_size
  by_cases he : s.hasEncryptor = false
  · simp [he]
  · simp [he, hg]

/-- Equation: `setSize` is a no-op when the encryptor is absent. -/
theorem set_size_eq_noenc {s : IssuedCidSet} {t : Nat} (he : s.hasEncryptor = false) :
    quicly_issued_cid_set_size s t = (s, 0) := by
  simp [quicly_issued_cid_set_size, he]

/-- Equation: the growing case of `setSize`. -/
theorem set_size_eq_grow {s : IssuedCidSet} {t : Nat} (he : s.hasEncryptor = true)
    (hg : s.active.length < min t s.capacity) :
    quicly_issued_cid_set_size s t =
      ({ issueN (min t s.capacity - s.active.length) s with lastTarget := min t s.capacity },
        min t s.capacity - s.active.length) := by
  unfold quicly_issued_cid_set_size
  rw [he]
  simp [Nat.not_le.2 hg]

theorem inv_set_size {s : IssuedCidSet} (h : Inv s) (t : Nat) :
    Inv (quicly_issued_cid_set_size s t).1 := by
  by_cases he : s.hasEncryptor = false
  · rw [set_size_eq_noenc he]; exact h
  · have henc : s.hasEncryptor = true := by
      cases hb : s.hasEncryptor
      · exact absurd hb he
      · rfl
    by_cases hg : min t s.capacity ≤ s.active.length
    · rw [set_size_eq_small hg]; exact h
    · rw [set_size_eq_grow henc (Nat.lt_of_not_le hg)]
      have hroom : s.active.length + (min t s.capacity - s.active.length) ≤ s.capacity := by
        have := Nat.min_le_right t s.capacity
        omega
      have hi := inv_issueN (min t s.capacity - s.active.length) h henc hroom
      refine ⟨hi.pf, hi.nd, hi.ok, ?_, ?_, ?_, ?_⟩
      · show (issueN _ s).active.length ≤ (issueN _ s).capacity
        rw [issueN_length, issueN_capacity]
        have := Nat.min_le_right t s.capacity
        omega
      · show min t s.capacity ≤ (issueN _ s).capacity
        rw [issueN_capacity]
        exact Nat.min_le_right t s.capacity
      · show 0 < (issueN _ s).capacity
        rw [issueN_capacity]
        exact h.cap
      · intro hfe
        change (issueN _ s).hasEncryptor = false at hfe
        rw [issueN_hasEncryptor, henc] at hfe
        cases hfe


/-! ### Invariant preservation: the event operations -/

theorem inv_on_sent {s : IssuedCidSet} (h : Inv s) (n : Nat) :
    Inv (quicly_issued_cid_on_sent s n) := by
  refine ⟨compact_scan _, ?_, ?_, ?_, h.tgt, h.cap, ?_⟩
  · apply nodup_compact
    rw [promotePending_map_sequence]
    exact h.nd
  · intro c hcm
    have hm := mem_compact.1 hcm
    rcases promotePending_mem hm with ⟨b, hbm, hc | hc⟩
    · rw [hc]; exact h.ok b hbm
    · rw [hc]
      rcases h.ok b hbm with ⟨h1, h2, _⟩
      exact ⟨h1, h2, by simp⟩
  · show (compact (promotePending n s.active)).length ≤ s.capacity
    rw [length_compact, promotePending_length]
    exact h.len
  · intro hfe
    have : s.active = [] := h.enc hfe
    show compact (promotePending n s.active) = []
    rw [this]
    cases n <;> rfl

theorem inv_on_acked {s : IssuedCidSet} (h : Inv s) (q : Nat) :
    Inv (quicly_issued_cid_on_acked s q) := by
  refine ⟨compact_scan _, ?_, ?_, ?_, h.tgt, h.cap, ?_⟩
  · exact nodup_compact (nodup_map_of_seq_eq (fun c _ => markAcked_sequence q c) h.nd)
  · intro c hcm
    rcases List.mem_map.1 (mem_compact.1 hcm) with ⟨b, hbm, rfl⟩
    rcases h.ok b hbm with ⟨h1, h2, h3⟩
    refine ⟨?_, ?_, ?_⟩
    · rw [markAcked_sequence]; exact h1
    · rw [markAcked_cid, markAcked_sequence]; exact h2
    · unfold markAcked
      split
      · simp
      · exact h3
  · show (compact (s.active.map (markAcked q))).length ≤ s.capacity
    rw [length_compact, List.length_map]
    exact h.len
  · intro hfe
    have : s.active = [] := h.enc hfe
    show compact (s.active.map (markAcked q)) = []
    rw [this]
    rfl

theorem inv_on_lost {s : IssuedCidSet} (h : Inv s) (q : Nat) :
    Inv (quicly_issued_cid_on_lost s q).1 := by
  unfold quicly_issued_cid_on_lost
  split
  · refine ⟨compact_scan _, ?_, ?_, ?_, h.tgt, h.cap, ?_⟩
    · exact nodup_compact (nodup_map_of_seq_eq (fun c _ => markLost_sequence q c) h.nd)
    · intro c hcm
      rcases List.mem_map.1 (mem_compact.1 hcm) with ⟨b, hbm, rfl⟩
      rcases h.ok b hbm with ⟨h1, h2, h3⟩
      refine ⟨?_, ?_, ?_⟩
      · rw [markLost_sequence]; exact h1
      · rw [markLost_cid, markLost_sequence]; exact h2
      · unfold markLost
        split
        · simp
        · exact h3
    · show (compact (s.active.map (markLost q))).length ≤ s.capacity
      rw [length_compact, List.length_map]
      exact h.len
    · intro hfe
      have : s.active = [] := h.enc hfe
      show compact (s.active.map (markLost q)) = []
      rw [this]
      rfl
  · exact h

theorem inv_removeSeq {s : IssuedCidSet} (h : Inv s) (q : Nat) : Inv (removeSeq s q) := by
  refine ⟨compact_scan _, ?_, ?_, ?_, h.tgt, h.cap, ?_⟩
  · apply nodup_compact
    exact ((List.filter_sublist s.active).map Slot.sequence).nodup h.nd
  · intro c hcm
    exact h.ok c (List.mem_filter.1 (mem_compact.1 hcm)).1
  · show (compact (s.active.filter _)).length ≤ s.capacity
    rw [length_compact]
    exact Nat.le_trans (List.length_filter_le _ _) h.len
  · intro hfe
    have ha : s.active = [] := h.enc hfe
    show compact (s.active.filter _) = []
    rw [ha]
    rfl

theorem inv_retire {s : IssuedCidSet} (h : Inv s) (q : Nat) :
    Inv (quicly_issued_cid_retire s q).1 := by
  unfold quicly_issued_cid_retire
  split
  · split
    · next hcond =>
      show Inv (issueOne (removeSeq s q))
      exact inv_issueOne (inv_removeSeq h q) hcond.1
        (Nat.lt_of_lt_of_le hcond.2 (inv_removeSeq h q).tgt)
    · exact inv_removeSeq h q
  · exact h

theorem inv_applyOp {s : IssuedCidSet} (h : Inv s) (op : Op) : Inv (applyOp s op) := by
  cases op with
  | setSize t => exact inv_set_size h t
  | onSent n => exact inv_on_sent h n
  | onAcked q => exact inv_on_acked h q
  | onLost q => exact inv_on_lost h q
  | retire q => exact inv_retire h q

theorem inv_foldl {s : IssuedCidSet} (h : Inv s) (ops : List Op) :
    Inv (ops.foldl applyOp s) := by
  induction ops generalizing s with
  | nil => exact h
  | cons op rest ih => exact ih (inv_applyOp h op)

theorem inv_run {hasEnc : Bool} {cap tpl : Nat} (hc : 0 < cap) (ops : List Op) :
    Inv (run hasEnc cap tpl ops) :=
  inv_foldl (inv_init hc) ops

theorem reachable_inv {s : IssuedCidSet} (h : Reachable s) : Inv s := by
  rcases h with ⟨hasEnc, cap, tpl, ops, hc, rfl⟩
  exact inv_run hc ops


/-! ### Supporting lemmas for the claim theorems -/

theorem countP_seq_eq_count (l : List Slot) (q : Nat) :
    l.countP (fun c => c.sequence == q) = (l.map Slot.sequence).count q := by
  rw [List.count_eq_countP, List.countP_map]
  rfl

theorem countP_seq_eq_one {l : List Slot} {q : Nat} (hnd : (l.map Slot.sequence).Nodup)
    (hex : ∃ c ∈ l, c.sequence = q) : l.countP (fun c => c.sequence == q) = 1 := by
  rw [countP_seq_eq_count]
  have hle := List.nodup_iff_count_le_one.1 hnd q
  have hpos : 0 < (l.map Slot.sequence).count q := by
    rw [List.count_pos_iff]
    rcases hex with ⟨c, hc, rfl⟩
    exact List.mem_map_of_mem Slot.sequence hc
  omega

theorem length_filter_ne (l : List Slot) (q : Nat) :
    (l.filter (fun c => !(c.sequence == q))).length
      + l.countP (fun c => c.sequence == q) = l.length := by
  induction l with
  | nil => rfl
  | cons c rest ih =>
    rw [List.filter_cons, List.countP_cons]
    by_cases hc : (c.sequence == q) = true
    · simp [hc]
      omega
    · simp [hc]
      omega

theorem map_seq_markAcked (q : Nat) (l : List Slot) :
    (l.map (markAcked q)).map Slot.sequence = l.map Slot.sequence := by
  rw [List.map_map]
  exact List.map_congr_left fun c _ => markAcked_sequence q c

theorem map_seq_markLost (q : Nat) (l : List Slot) :
    (l.map (markLost q)).map Slot.sequence = l.map Slot.sequence := by
  rw [List.map_map]
  exact List.map_congr_left fun c _ => markLost_sequence q c

theorem seq_mem_compact {l : List Slot} {q : Nat}
    (h : q ∈ l.map Slot.sequence) : q ∈ (compact l).map Slot.sequence :=
  ((map_compact_perm Slot.sequence l).symm.mem_iff).1 h

/-- After `onAcked`, every active slot carrying the acknowledged sequence is
`Delivered`. -/
theorem on_acked_all_delivered (s : IssuedCidSet) (q : Nat) :
    ∀ c ∈ (quicly_issued_cid_on_acked s q).active,
      c.sequence = q → c.state = CidState.delivered := by
  intro c hcm hcq
  rcases List.mem_map.1 (mem_compact.1 hcm) with ⟨b, hbm, rfl⟩
  unfold markAcked at hcq ⊢
  by_cases hb : (b.sequence == q) = true
  · simp [hb]
  · rw [if_neg (by simp [hb])] at hcq ⊢
    exact absurd (beq_iff_eq.2 hcq) (by simp [hb])

/-- `onAcked` preserves the multiset of active sequence numbers. -/
theorem on_acked_seq_mem (s : IssuedCidSet) (q a : Nat)
    (h : a ∈ s.active.map Slot.sequence) :
    a ∈ (quicly_issued_cid_on_acked s q).active.map Slot.sequence := by
  apply seq_mem_compact
  rw [map_seq_markAcked]
  exact h

/-- `onLost` preserves the multiset of active sequence numbers. -/
theorem on_lost_seq_mem (s : IssuedCidSet) (q a : Nat)
    (h : a ∈ s.active.map Slot.sequence) :
    a ∈ (quicly_issued_cid_on_lost s q).1.active.map Slot.sequence := by
  unfold quicly_issued_cid_on_lost
  split
  · show a ∈ (compact (s.active.map (markLost q))).map Slot.sequence
    apply seq_mem_compact
    rw [map_seq_markLost]
    exact h
  · exact h


/-! ### Concrete operation sequences from the unit test -/

/-- The operation sequence of `test_issued_cid` up to and including the four
retirements of sequences 0-3 (capacity `NUM_CIDS = 4`). -/
def preSentOps : List Op :=
  [Op.setSize 4, Op.onSent 3, Op.onAcked 1, Op.onAcked 3, Op.onLost 2, Op.onSent 1,
   Op.retire 0, Op.retire 1, Op.retire 2, Op.retire 3]

/-- The test sequence continued with the partial send `on_sent(1)`. -/
def demoOps : List Op :=
  [Op.setSize 4, Op.onSent 3, Op.onAcked 1, Op.onAcked 3, Op.onLost 2, Op.onSent 1,
   Op.retire 0, Op.retire 1, Op.retire 2, Op.retire 3, Op.onSent 1]

/-! ### Claim theorems -/

/-- C1: for every reachable state of the issued-CID set, the pending-first
scan of `verify_array` succeeds on the active slots: scanning from index 0,
once a non-`Pending` state is seen, no further `Pending` state appears. -/
theorem issued_cid_pending_before_nonpending (s : IssuedCidSet) (h : Reachable s) :
    pending_first_scan true s.active = true :=
  (reachable_inv h).pf

theorem issued_cid_pending_before_nonpending_witness :
    Reachable (run true 4 0 demoOps) ∧
      pending_first_scan true (run true 4 0 demoOps).active = true := by
  have h : Reachable (run true 4 0 demoOps) := ⟨true, 4, 0, demoOps, by decide, rfl⟩
  exact ⟨h, issued_cid_pending_before_nonpending _ h⟩

/-- C2: in every reachable state the sequence numbers of the active slots
are pairwise distinct; consequently, for every sequence number `q` at most
one active slot carries it. -/
theorem issued_cid_sequences_pairwise_distinct (s : IssuedCidSet) (h : Reachable s) :
    (s.active.map Slot.sequence).Nodup ∧
      ∀ q : Nat, s.active.countP (fun c => c.sequence == q) ≤ 1 := by
  have hinv := reachable_inv h
  refine ⟨hinv.nd, fun q => ?_⟩
  rw [countP_seq_eq_count]
  exact List.nodup_iff_count_le_one.1 hinv.nd q

theorem issued_cid_sequences_pairwise_distinct_witness :
    Reachable (run true 4 0 demoOps) ∧
      (run true 4 0 demoOps).active.countP (fun c => c.sequence == 4) ≤ 1 := by
  have h : Reachable (run true 4 0 demoOps) := ⟨true, 4, 0, demoOps, by decide, rfl⟩
  exact ⟨h, (issued_cid_sequences_pairwise_distinct _ h).2 4⟩

/-- C7: `onAcked` is idempotent — acknowledging the same sequence twice in a
row produces exactly the same set state as acknowledging it once. -/
theorem issued_cid_on_acked_idempotent (s : IssuedCidSet) (q : Nat) :
    quicly_issued_cid_on_acked (quicly_issued_cid_on_acked s q) q =
      quicly_issued_cid_on_acked s q := by
  have hidem : ∀ b : Slot, markAcked q (markAcked q b) = markAcked q b := by
    intro b
    unfold markAcked
    by_cases hb : (b.sequence == q) = true
    · simp [hb]
    · simp [hb]
  have key1 : ∀ c ∈ (quicly_issued_cid_on_acked s q).active, markAcked q c = c := by
    intro c hc
    rcases List.mem_map.1 (mem_compact.1 hc) with ⟨b, _, rfl⟩
    exact hidem b
  have key2 : (quicly_issued_cid_on_acked s q).active.map (markAcked q)
      = (quicly_issued_cid_on_acked s q).active := by
    have h1 := List.map_congr_left key1
    rw [h1]
    exact List.map_id _
  have key3 : compact (quicly_issued_cid_on_acked s q).active
      = (quicly_issued_cid_on_acked s q).active :=
    compact_eq_self (compact_scan _)
  show { quicly_issued_cid_on_acked s q with
      active := compact ((quicly_issued_cid_on_acked s q).active.map (markAcked q)) }
    = quicly_issued_cid_on_acked s q
  rw [key2, key3]

/-- C8: a set initialised without an encryptor starts empty and stays empty
under every operation sequence: the active prefix remains empty, `isEmpty`
keeps reporting `true`, and every `setSize` request returns 0 and changes
nothing. -/
theorem issued_cid_no_encryptor_forever_empty (cap tpl : Nat) (ops : List Op) :
    (run false cap tpl ops).active = [] ∧
    quicly_issued_cid_is_empty (run false cap tpl ops) = true ∧
    ∀ t, quicly_issued_cid_set_size (run false cap tpl ops) t =
      (run false cap tpl ops, 0) := by
  have main : ∀ (s : IssuedCidSet), s.hasEncryptor = false → s.active = [] →
      ∀ (l : List Op), (l.foldl applyOp s).hasEncryptor = false ∧
        (l.foldl applyOp s).active = [] := by
    intro s he ha l
    induction l generalizing s with
    | nil => exact ⟨he, ha⟩
    | cons op rest ih =>
      have step : (applyOp s op).hasEncryptor = false ∧ (applyOp s op).active = [] := by
        cases op with
        | setSize t =>
          show (quicly_issued_cid_set_size s t).1.hasEncryptor = false ∧
            (quicly_issued_cid_set_size s t).1.active = []
          rw [set_size_eq_noenc he]
          exact ⟨he, ha⟩
        | onSent n =>
          refine ⟨he, ?_⟩
          show compact (promotePending n s.active) = []
          rw [ha]
          cases n <;> rfl
        | onAcked q =>
          refine ⟨he, ?_⟩
          show compact (s.active.map (markAcked q)) = []
          rw [ha]
          rfl
        | onLost q =>
          have hany : (s.active.any fun c => c.sequence == q && isInflight c) = false := by
            rw [ha]
            rfl
          show (quicly_issued_cid_on_lost s q).1.hasEncryptor = false ∧
            (quicly_issued_cid_on_lost s q).1.active = []
          unfold quicly_issued_cid_on_lost
          rw [hany]
          exact ⟨he, ha⟩
        | retire q =>
          have hany : (s.active.any fun c => c.sequence == q) = false := by
            rw [ha]
            rfl
          show (quicly_issued_cid_retire s q).1.hasEncryptor = false ∧
            (quicly_issued_cid_retire s q).1.active = []
          unfold quicly_issued_cid_retire
          rw [hany]
          exact ⟨he, ha⟩
      exact ih _ step.1 step.2
  have h := main (quicly_issued_cid_init false cap tpl) rfl rfl ops
  refine ⟨h.2, ?_, fun t => ?_⟩
  · show (List.foldl applyOp (quicly_issued_cid_init false cap tpl) ops).active.isEmpty = true
    rw [h.2]
    rfl
  · exact set_size_eq_noenc h.1


/-- C4: `setSize` returns exactly the number of newly issued slots; it
returns 0 and makes no change when the encryptor is absent, when the target
does not exceed the current active count, or when capacity is exhausted;
and concretely, after `init` with an encryptor (one `Delivered` slot,
sequence 0), `setSize 4` issues 3 new `Pending` slots with sequences
1, 2, 3. -/
theorem issued_cid_set_size_spec :
    (∀ (s : IssuedCidSet) (t : Nat),
      (quicly_issued_cid_set_size s t).2 =
        (quicly_issued_cid_set_size s t).1.active.length - s.active.length) ∧
    (∀ (s : IssuedCidSet) (t : Nat),
      s.hasEncryptor = false ∨ t ≤ s.active.length ∨ s.capacity ≤ s.active.length →
        quicly_issued_cid_set_size s t = (s, 0)) ∧
    ((quicly_issued_cid_set_size (run true 4 0 []) 4).2 = 3 ∧
      exists_once (run true 4 0 [Op.setSize 4]) 0 CidState.delivered = true ∧
      exists_once (run true 4 0 [Op.setSize 4]) 1 CidState.pending = true ∧
      exists_once (run true 4 0 [Op.setSize 4]) 2 CidState.pending = true ∧
      exists_once (run true 4 0 [Op.setSize 4]) 3 CidState.pending = true ∧
      num_pending (run true 4 0 [Op.setSize 4]) = 3) := by
  refine ⟨?_, ?_, by decide⟩
  · intro s t
    by_cases he : s.hasEncryptor = false
    · rw [set_size_eq_noenc he]
      show (0 : Nat) = s.active.length - s.active.length
      omega
    · have henc : s.hasEncryptor = true := by
        cases hb : s.hasEncryptor
        · exact absurd hb he
        · rfl
      by_cases hg : min t s.capacity ≤ s.active.length
      · rw [set_size_eq_small hg]
        show (0 : Nat) = s.active.length - s.active.length
        omega
      · rw [set_size_eq_grow henc (Nat.lt_of_not_le hg)]
        show min t s.capacity - s.active.length
          = (issueN (min t s.capacity - s.active.length) s).active.length - s.active.length
        rw [issueN_length]
        omega
  · intro s t hzero
    rcases hzero with he | hle | hcap
    · exact set_size_eq_noenc he
    · exact set_size_eq_small (Nat.le_trans (Nat.min_le_left t s.capacity) hle)
    · exact set_size_eq_small (Nat.le_trans (Nat.min_le_right t s.capacity) hcap)

theorem issued_cid_set_size_spec_witness :
    (quicly_issued_cid_init false 4 0).hasEncryptor = false ∧
      quicly_issued_cid_set_size (quicly_issued_cid_init false 4 0) 4 =
        (quicly_issued_cid_init false 4 0, 0) := by
  refine ⟨rfl, ?_⟩
  exact issued_cid_set_size_spec.2.1 (quicly_issued_cid_init false 4 0) 4 (Or.inl rfl)

/-- C5: `onLost` reports success and requeues the slot as `Pending` if and
only if the active slot with the matching sequence is currently `Inflight`;
in every other case (no matching active slot, or a `Pending`/`Delivered`
slot) it is a no-op reporting `false`, so it never changes a `Delivered`
slot's state. -/
theorem issued_cid_on_lost_spec (s : IssuedCidSet) (q : Nat) (h : Reachable s) :
    ((quicly_issued_cid_on_lost s q).2 = true ↔
      ∃ c ∈ s.active, c.sequence = q ∧ c.state = CidState.inflight) ∧
    ((∃ c ∈ s.active, c.sequence = q ∧ c.state = CidState.inflight) →
      ∀ c ∈ (quicly_issued_cid_on_lost s q).1.active,
        c.sequence = q → c.state = CidState.pending) ∧
    ((∀ c ∈ s.active, c.sequence = q → c.state ≠ CidState.inflight) →
      quicly_issued_cid_on_lost s q = (s, false)) := by
  have hinv := reachable_inv h
  have hguard : (s.active.any fun c => c.sequence == q && isInflight c) = true ↔
      ∃ c ∈ s.active, c.sequence = q ∧ c.state = CidState.inflight := by
    rw [List.any_eq_true]
    constructor
    · rintro ⟨c, hc, hp⟩
      rw [Bool.and_eq_true] at hp
      exact ⟨c, hc, beq_iff_eq.1 hp.1, isInflight_iff.1 hp.2⟩
    · rintro ⟨c, hc, h1, h2⟩
      refine ⟨c, hc, ?_⟩
      rw [Bool.and_eq_true]
      exact ⟨beq_iff_eq.2 h1, isInflight_iff.2 h2⟩
  refine ⟨?_, ?_, ?_⟩
  · unfold quicly_issued_cid_on_lost
    by_cases hg : (s.active.any fun c => c.sequence == q && isInflight c) = true
    · rw [if_pos hg]
      simpa using hguard.1 hg
    · rw [if_neg hg]
      constructor
      · intro hfalse
        cases hfalse
      · intro hex
        exact absurd (hguard.2 hex) hg
  · intro hex c hcm hcq
    have hg := hguard.2 hex
    have hact : (quicly_issued_cid_on_lost s q).1.active
        = compact (s.active.map (markLost q)) := by
      unfold quicly_issued_cid_on_lost
      rw [if_pos hg]
    rw [hact] at hcm
    rcases List.mem_map.1 (mem_compact.1 hcm) with ⟨b, hbm, rfl⟩
    have hbq : b.sequence = q := by
      rw [markLost_sequence] at hcq
      exact hcq
    rcases hex with ⟨c0, hc0m, hc0q, hc0st⟩
    have hbc0 : b = c0 :=
      List.inj_on_of_nodup_map hinv.nd hbm hc0m (by rw [hbq, hc0q])
    subst hbc0
    have hcond : (b.sequence == q && isInflight b) = true := by
      rw [Bool.and_eq_true]
      exact ⟨beq_iff_eq.2 hbq, isInflight_iff.2 hc0st⟩
    unfold markLost
    rw [if_pos hcond]
  · intro hall
    have hg : (s.active.any fun c => c.sequence == q && isInflight c) = false := by
      cases hb : (s.active.any fun c => c.sequence == q && isInflight c)
      · rfl
      · rcases hguard.1 hb with ⟨c, hc, h1, h2⟩
        exact absurd h2 (hall c hc h1)
    unfold quicly_issued_cid_on_lost
    rw [hg]
    rfl

theorem issued_cid_on_lost_spec_witness :
    Reachable (run true 4 0 demoOps) ∧
      ((quicly_issued_cid_on_lost (run true 4 0 demoOps) 4).2 = true ↔
        ∃ c ∈ (run true 4 0 demoOps).active,
          c.sequence = 4 ∧ c.state = CidState.inflight) := by
  have h : Reachable (run true 4 0 demoOps) := ⟨true, 4, 0, demoOps, by decide, rfl⟩
  exact ⟨h, (issued_cid_on_lost_spec _ 4 h).1⟩

/-- C6: for every active sequence, a loss signal followed by an
acknowledgment for the same sequence always leaves that slot `Delivered`
(late-ACK-wins): `onAcked` marks the matching slot `Delivered` regardless
of any preceding requeue to `Pending`. -/
theorem issued_cid_lost_then_acked_delivered (s : IssuedCidSet) (q : Nat)
    (_h : Reachable s) (hex : ∃ c ∈ s.active, c.sequence = q) :
    (∃ c ∈ (quicly_issued_cid_on_acked (quicly_issued_cid_on_lost s q).1 q).active,
      c.sequence = q ∧ c.state = CidState.delivered) ∧
    (∀ c ∈ (quicly_issued_cid_on_acked (quicly_issued_cid_on_lost s q).1 q).active,
      c.sequence = q → c.state = CidState.delivered) := by
  have hq0 : q ∈ s.active.map Slot.sequence := by
    rcases hex with ⟨c, hc, rfl⟩
    exact List.mem_map_of_mem Slot.sequence hc
  have hq1 : q ∈ (quicly_issued_cid_on_lost s q).1.active.map Slot.sequence :=
    on_lost_seq_mem s q q hq0
  have hq2 : q ∈ (quicly_issued_cid_on_acked
      (quicly_issued_cid_on_lost s q).1 q).active.map Slot.sequence :=
    on_acked_seq_mem _ q q hq1
  have hdel := on_acked_all_delivered (quicly_issued_cid_on_lost s q).1 q
  rcases List.mem_map.1 hq2 with ⟨c, hcm, hcq⟩
  exact ⟨⟨c, hcm, hcq, hdel c hcm hcq⟩, hdel⟩

theorem issued_cid_lost_then_acked_delivered_witness :
    Reachable (run true 4 0 demoOps) ∧
      (∃ c ∈ (run true 4 0 demoOps).active, c.sequence = 4) ∧
      (∀ c ∈ (quicly_issued_cid_on_acked
          (quicly_issued_cid_on_lost (run true 4 0 demoOps) 4).1 4).active,
        c.sequence = 4 → c.state = CidState.delivered) := by
  have h : Reachable (run true 4 0 demoOps) := ⟨true, 4, 0, demoOps, by decide, rfl⟩
  have hex : ∃ c ∈ (run true 4 0 demoOps).active, c.sequence = 4 := by decide
  exact ⟨h, hex, (issued_cid_lost_then_acked_delivered _ 4 h hex).2⟩


/-- C9 (amended): for every reachable state, every active slot stores
exactly the bytes the encryptor produced for a plaintext whose `path_id`
equals the slot's sequence number, and decoding those bytes recovers the
sequence modulo 256 — hence the sequence itself whenever it is below 256
(as for all sequences reached in the unit test). -/
theorem issued_cid_cid_encodes_sequence (s : IssuedCidSet) (h : Reachable s) :
    ∀ c ∈ s.active,
      c.cid = encrypt_cid c.sequence ∧
      decrypt_cid c.cid = c.sequence % 256 ∧
      (c.sequence < 256 → decrypt_cid c.cid = c.sequence) := by
  intro c hcm
  have hcid := ((reachable_inv h).ok c hcm).2.1
  refine ⟨hcid, ?_, ?_⟩
  · rw [hcid]
    rfl
  · intro hlt
    rw [hcid]
    show c.sequence % 256 = c.sequence
    exact Nat.mod_eq_of_lt hlt

theorem issued_cid_cid_encodes_sequence_witness :
    Reachable (run true 4 0 demoOps) ∧
      (Slot.mk 4 [4] CidState.inflight ∈ (run true 4 0 demoOps).active ∧
        decrypt_cid (Slot.mk 4 [4] CidState.inflight).cid
          = (Slot.mk 4 [4] CidState.inflight).sequence % 256) := by
  have h : Reachable (run true 4 0 demoOps) := ⟨true, 4, 0, demoOps, by decide, rfl⟩
  have hm : Slot.mk 4 [4] CidState.inflight ∈ (run true 4 0 demoOps).active := by decide
  exact ⟨h, hm, (issued_cid_cid_encodes_sequence _ h _ hm).2.1⟩

/-- An operation sequence that retires 256 slots in a row, driving the
sequence counter past the one-byte range of the test encryptor. -/
def overflowOps : List Op :=
  (List.range 256).map Op.retire

set_option maxRecDepth 40000 in
/-- C9 (counterexample to the claim as stated): the state reached by
retiring sequences 0..255 in order is reachable, its single active slot
has sequence 256 with stored CID byte 0, so decoding its stored bytes does
not recover its sequence, and `verify_array` fails on it. -/
theorem issued_cid_decode_roundtrip_counterexample :
    Reachable (run true 4 0 overflowOps) ∧
      ((run true 4 0 overflowOps).active.all
        (fun c => decrypt_cid c.cid == c.sequence)) = false ∧
      exists_once (run true 4 0 overflowOps) 256 CidState.pending = true ∧
      verify_array (run true 4 0 overflowOps) = false := by
  refine ⟨⟨true, 4, 0, overflowOps, by decide, rfl⟩, by decide, by decide, by decide⟩

/-- C10: `onSent` deterministically promotes the leading slots of the
`Pending` group: after the four retirements leave replacements 4, 5, 6, 7
all `Pending` in issuance order, `on_sent(1)` promotes exactly the slot
with sequence 4 — the oldest `Pending` slot — to `Inflight`, leaving
5, 6, 7 `Pending`. -/
theorem issued_cid_on_sent_promotes_oldest :
    (exists_once (run true 4 0 preSentOps) 4 CidState.pending = true ∧
      exists_once (run true 4 0 preSentOps) 5 CidState.pending = true ∧
      exists_once (run true 4 0 preSentOps) 6 CidState.pending = true ∧
      exists_once (run true 4 0 preSentOps) 7 CidState.pending = true ∧
      num_pending (run true 4 0 preSentOps) = 4) ∧
    run true 4 0 demoOps = quicly_issued_cid_on_sent (run true 4 0 preSentOps) 1 ∧
    (exists_once (run true 4 0 demoOps) 4 CidState.inflight = true ∧
      exists_once (run true 4 0 demoOps) 5 CidState.pending = true ∧
      exists_once (run true 4 0 demoOps) 6 CidState.pending = true ∧
      exists_once (run true 4 0 demoOps) 7 CidState.pending = true ∧
      num_pending (run true 4 0 demoOps) = 3) := by
  refine ⟨by decide, by decide, by decide⟩


/-! ### Equations and membership facts for `retire` -/

theorem mem_removeSeq_ne {s : IssuedCidSet} {q : Nat} {c : Slot}
    (h : c ∈ (removeSeq s q).active) : c.sequence ≠ q := by
  have hb := (List.mem_filter.1 (mem_compact.1 h)).2
  intro hq
  rw [hq] at hb
  simp at hb

theorem removeSeq_length {s : IssuedCidSet} {q : Nat}
    (hnd : (s.active.map Slot.sequence).Nodup) (hex : ∃ c ∈ s.active, c.sequence = q) :
    (removeSeq s q).active.length + 1 = s.active.length := by
  show (compact (s.active.filter fun c => !(c.sequence == q))).length + 1 = s.active.length
  rw [length_compact]
  have h1 := length_filter_ne s.active q
  rw [countP_seq_eq_one hnd hex] at h1
  omega

theorem retire_eq_notfound {s : IssuedCidSet} {q : Nat}
    (hany : (s.active.any fun c => c.sequence == q) = false) :
    quicly_issued_cid_retire s q = (s, false) := by
  unfold quicly_issued_cid_retire
  rw [hany]
  rfl

theorem retire_eq_backfill {s : IssuedCidSet} {q : Nat}
    (hany : (s.active.any fun c => c.sequence == q) = true)
    (hcond : (removeSeq s q).hasEncryptor = true
      ∧ (removeSeq s q).active.length < (removeSeq s q).lastTarget) :
    quicly_issued_cid_retire s q = (issueOne (removeSeq s q), true) := by
  unfold quicly_issued_cid_retire
  rw [if_pos hany, if_pos hcond]

theorem retire_eq_nofill {s : IssuedCidSet} {q : Nat}
    (hany : (s.active.any fun c => c.sequence == q) = true)
    (hcond : ¬((removeSeq s q).hasEncryptor = true
      ∧ (removeSeq s q).active.length < (removeSeq s q).lastTarget)) :
    quicly_issued_cid_retire s q = (removeSeq s q, true) := by
  unfold quicly_issued_cid_retire
  rw [if_pos hany, if_neg hcond]

theorem issueOne_new_mem (s : IssuedCidSet) :
    (⟨s.nextSequence, encrypt_cid s.nextSequence, CidState.pending⟩ : Slot)
      ∈ (issueOne s).active := by
  show _ ∈ compact (s.active ++ [_])
  exact mem_compact.2 (List.mem_append.2 (Or.inr (List.mem_singleton.2 rfl)))

theorem issueOne_mem {s : IssuedCidSet} {c : Slot} (h : c ∈ (issueOne s).active) :
    c ∈ s.active
      ∨ c = ⟨s.nextSequence, encrypt_cid s.nextSequence, CidState.pending⟩ := by
  rcases List.mem_append.1 (mem_compact.1 h) with h1 | h1
  · exact Or.inl h1
  · exact Or.inr (List.mem_singleton.1 h1)

/-! ### The scenario states of the retirement phase of the unit test -/

/-- The state of the test just before the four retirements. -/
def retireBase : IssuedCidSet :=
  run true 4 0 [Op.setSize 4, Op.onSent 3, Op.onAcked 1, Op.onAcked 3, Op.onLost 2, Op.onSent 1]

/-- The states after retiring sequences 0, 1, 2, 3 in turn. -/
def retireS1 : IssuedCidSet := (quicly_issued_cid_retire retireBase 0).1

def retireS2 : IssuedCidSet := (quicly_issued_cid_retire retireS1 1).1

def retireS3 : IssuedCidSet := (quicly_issued_cid_retire retireS2 2).1

def retireS4 : IssuedCidSet := (quicly_issued_cid_retire retireS3 3).1

/-- C3: `retire` on a currently active sequence reports success and frees
that slot (its sequence is no longer active); when the encryptor is present
and there is room below the last-requested target, a replacement `Pending`
slot with the fresh, never-yet-used sequence `nextSequence` is issued in
the same call.  `retire` for a sequence with no active slot reports `false`
and changes nothing.  Concretely, from the capacity-4 test scenario,
retiring sequences 0, 1, 2, 3 in turn each reports success and yields the
replacement slots with sequences 4, 5, 6, 7, all `Pending`. -/
theorem issued_cid_retire_spec :
    (∀ (s : IssuedCidSet) (q : Nat), Reachable s →
      ((∃ c ∈ s.active, c.sequence = q) →
        (quicly_issued_cid_retire s q).2 = true ∧
        (∀ c ∈ (quicly_issued_cid_retire s q).1.active, c.sequence ≠ q) ∧
        (s.hasEncryptor = true → s.active.length ≤ s.lastTarget →
          ∃ c ∈ (quicly_issued_cid_retire s q).1.active,
            c.sequence = s.nextSequence ∧ c.state = CidState.pending ∧
            ∀ b ∈ s.active, b.sequence ≠ c.sequence)) ∧
      ((∀ c ∈ s.active, c.sequence ≠ q) → quicly_issued_cid_retire s q = (s, false))) ∧
    ((quicly_issued_cid_retire retireBase 0).2 = true ∧
      (quicly_issued_cid_retire retireS1 1).2 = true ∧
      (quicly_issued_cid_retire retireS2 2).2 = true ∧
      (quicly_issued_cid_retire retireS3 3).2 = true ∧
      exists_once retireS4 4 CidState.pending = true ∧
      exists_once retireS4 5 CidState.pending = true ∧
      exists_once retireS4 6 CidState.pending = true ∧
      exists_once retireS4 7 CidState.pending = true ∧
      num_pending retireS4 = 4) := by
  refine ⟨?_, by decide⟩
  intro s q hreach
  have hinv := reachable_inv hreach
  constructor
  · intro hex
    have hany : (s.active.any fun c => c.sequence == q) = true := by
      rw [List.any_eq_true]
      rcases hex with ⟨c, hc, hq⟩
      exact ⟨c, hc, beq_iff_eq.2 hq⟩
    have hq_lt : q < s.nextSequence := by
      rcases hex with ⟨c, hc, hq⟩
      have := (hinv.ok c hc).1
      omega
    refine ⟨?_, ?_, ?_⟩
    · unfold quicly_issued_cid_retire
      rw [if_pos hany]
      split <;> rfl
    · intro c hcm
      by_cases hcond : (removeSeq s q).hasEncryptor = true
          ∧ (removeSeq s q).active.length < (removeSeq s q).lastTarget
      · rw [retire_eq_backfill hany hcond] at hcm
        rcases issueOne_mem hcm with hm | hm
        · exact mem_removeSeq_ne hm
        · rw [hm]
          show (removeSeq s q).nextSequence ≠ q
          show s.nextSequence ≠ q
          omega
      · rw [retire_eq_nofill hany hcond] at hcm
        exact mem_removeSeq_ne hcm
    · intro henc hlen
      have hpos : 0 < s.active.length := by
        rcases hex with ⟨c, hc, _⟩
        exact List.length_pos_of_mem hc
      have hrl := removeSeq_length hinv.nd hex
      have hcond : (removeSeq s q).hasEncryptor = true
          ∧ (removeSeq s q).active.length < (removeSeq s q).lastTarget := by
        refine ⟨henc, ?_⟩
        show (removeSeq s q).active.length < s.lastTarget
        omega
      rw [retire_eq_backfill hany hcond]
      refine ⟨⟨(removeSeq s q).nextSequence, encrypt_cid (removeSeq s q).nextSequence,
        CidState.pending⟩, issueOne_new_mem (removeSeq s q), rfl, rfl, ?_⟩
      intro b hbm
      have := (hinv.ok b hbm).1
      show b.sequence ≠ s.nextSequence
      omega
  · intro hall
    have hany : (s.active.any fun c => c.sequence == q) = false := by
      cases hb : (s.active.any fun c => c.sequence == q)
      · rfl
      · rcases List.any_eq_true.1 hb with ⟨c, hc, hbq⟩
        exact absurd (beq_iff_eq.1 hbq) (hall c hc)
    exact retire_eq_notfound hany

theorem issued_cid_retire_spec_witness :
    Reachable retireBase ∧ (∃ c ∈ retireBase.active, c.sequence = 0) ∧
      (quicly_issued_cid_retire retireBase 0).2 = true := by
  have h : Reachable retireBase :=
    ⟨true, 4, 0,
      [Op.setSize 4, Op.onSent 3, Op.onAcked 1, Op.onAcked 3, Op.onLost 2, Op.onSent 1],
      by decide, rfl⟩
  have hex : ∃ c ∈ retireBase.active, c.sequence = 0 := by decide
  exact ⟨h, hex, (((issued_cid_retire_spec.1 retireBase 0 h).1 hex)).1⟩

end IssuedCid
